import Mathlib

/-!
Verification of core noodles codecs against their natural-language specification.

Each section shallowly embeds one Rust source file:
machine integers become `Nat` with explicit `% 2^w` where overflow matters,
`Vec` indexing that can panic becomes `Option`, and fallible functions
return `Except`.
-/

namespace Spec2Proof

/-! ## BGZF virtual-position arithmetic (noodles-bgzf/src/reader.rs) -/

-- fn compressed_offset(offset: u64) -> u64 { (offset >> 16) & 0xffff_ffff_ffff }
def compressed_offset (offset : Nat) : Nat :=
(offset >>> 16) &&& 0xffffffffffff

-- fn uncompressed_offset(offset: u64) -> u64 { offset & 0xffff }
def uncompressed_offset (offset : Nat) : Nat :=
offset &&& 0xffff

/-- Modelled from the spec: the virtual-position constructor `make` lives in
noodles-bgzf's virtual-position module, which is not among the provided source
files.  Per the spec, `make(c, u) = (c << 16) | (u & 0xFFFF)` on 64-bit
unsigned integers (hence the final reduction modulo `2^64`). -/
def make (c u : Nat) : Nat :=
((c <<< 16) ||| (u &&& 0xffff)) % 2 ^ 64

theorem uncompressed_offset_eq_mod (vp : Nat) : uncompressed_offset vp = vp % 2 ^ 16 := by
have h : (0xffff : Nat) = 2 ^ 16 - 1 := by norm_num
rw [uncompressed_offset, h, Nat.and_pow_two_sub_one_eq_mod]

theorem compressed_offset_eq_div (vp : Nat) (hvp : vp < 2 ^ 64) :
    compressed_offset vp = vp / 2 ^ 16 := by
have h : (0xffffffffffff : Nat) = 2 ^ 48 - 1 := by norm_num
rw [compressed_offset, h, Nat.and_pow_two_sub_one_eq_mod, Nat.shiftRight_eq_div_pow]
apply Nat.mod_eq_of_lt
have : vp / 2 ^ 16 < 2 ^ 48 := by
  apply Nat.div_lt_of_lt_mul
  calc vp < 2 ^ 64 := hvp
    _ = 2 ^ 16 * 2 ^ 48 := by norm_num
exact this

/-- Claim C5: for every 64-bit virtual position `vp` (whose compressed offset
is then necessarily below `2^48`), recomposing the extracted offsets with
`make` gives back `vp`. -/
theorem c5_make_offsets_roundtrip (vp : Nat) (hvp : vp < 2 ^ 64) :
    make (compressed_offset vp) (uncompressed_offset vp) = vp := by
rw [compressed_offset_eq_div vp hvp, uncompressed_offset_eq_mod]
unfold make
have hmask : (0xffff : Nat) = 2 ^ 16 - 1 := by norm_num
rw [hmask, Nat.and_pow_two_sub_one_eq_mod, Nat.mod_mod_of_dvd vp (dvd_refl _)]
rw [Nat.shiftLeft_eq]
have hmod : vp % 2 ^ 16 < 2 ^ 16 := Nat.mod_lt _ (by norm_num)
have hor : 2 ^ 16 * (vp / 2 ^ 16) + vp % 2 ^ 16 = 2 ^ 16 * (vp / 2 ^ 16) ||| vp % 2 ^ 16 :=
  Nat.mul_add_lt_is_or hmod _
rw [Nat.mul_comm (vp / 2 ^ 16) (2 ^ 16), ← hor, Nat.div_add_mod]
exact Nat.mod_eq_of_lt hvp

/-- Witness for C5 at the spec's own scenario value `88384945211`. -/
theorem c5_make_offsets_roundtrip_witness :
    88384945211 < 2 ^ 64 ∧
      make (compressed_offset 88384945211) (uncompressed_offset 88384945211) = 88384945211 :=
⟨by norm_num, c5_make_offsets_roundtrip 88384945211 (by norm_num)⟩

/-! ## VCF record chromosome (noodles-vcf/src/record/chromosome.rs)

Strings are embedded as lists of characters. -/

inductive Chromosome where
  | name (s : List Char)
  | symbol (s : List Char)
deriving DecidableEq

inductive ChromosomeParseError where
  | empty
  | missing
  | invalid
deriving DecidableEq

/-- Modelled from the spec: `MISSING_FIELD` is declared in the noodles-vcf
record module, which is not among the provided source files; the spec fixes
the missing chromosome token as the single dot. -/
def MISSING_FIELD : List Char := ['.']

-- fn is_valid_name_char(c: char) -> bool.  The excluded characters are given
-- here by their character codes: 92 44 34 96 39 40 41 91 93 123 125 60 62
-- (backslash, comma, double quote, backtick, apostrophe, parentheses,
-- square brackets, curly braces, angle brackets); the accepted range
-- 33..=126 is the printable ASCII range from exclamation mark to tilde.
def is_valid_name_char (c : Char) : Bool :=
33 ≤ c.toNat && c.toNat ≤ 126 &&
    !(c.toNat = 92 || c.toNat = 44 || c.toNat = 34 || c.toNat = 96 || c.toNat = 39 ||
      c.toNat = 40 || c.toNat = 41 || c.toNat = 91 || c.toNat = 93 || c.toNat = 123 ||
      c.toNat = 125 || c.toNat = 60 || c.toNat = 62)

-- pub(crate) fn is_valid_name(s: &str) -> bool.  Character codes 42 and 61
-- are the star and the equals sign, rejected as first character.
def is_valid_name (s : List Char) : Bool :=
match s with
  | [] => true
  | c :: rest =>
    if c.toNat = 42 || c.toNat = 61 || !is_valid_name_char c then false
    else rest.all is_valid_name_char

-- impl FromStr for Chromosome: empty check, missing check, angle-bracket
-- symbol stripping, then the name validity check.
def Chromosome.from_str (s : List Char) : Except ChromosomeParseError Chromosome :=
if s.isEmpty then .error .empty
  else if s = MISSING_FIELD then .error .missing
  else
    match s with
    | '<' :: t =>
      if t.getLast? = some '>' then .ok (.symbol t.dropLast)
      else if is_valid_name s then .ok (.name s) else .error .invalid
    | _ => if is_valid_name s then .ok (.name s) else .error .invalid

/-- Claim C7: parsing returns `Name("sq0")` for `"sq0"`, `Symbol("sq0")` for
`"<sq0>"`, the `Empty` error for `""`, the `Missing` error for `"."`, and the
`Invalid` error for `"sq 0"`, `"sq[0]"`, `">sq0"`, `"*sq0"`, `"=sq0"`. -/
theorem c7_chromosome_parse_cases :
    Chromosome.from_str ['s', 'q', '0'] = .ok (.name ['s', 'q', '0']) ∧
      Chromosome.from_str ['<', 's', 'q', '0', '>'] = .ok (.symbol ['s', 'q', '0']) ∧
      Chromosome.from_str [] = .error .empty ∧
      Chromosome.from_str ['.'] = .error .missing ∧
      Chromosome.from_str ['s', 'q', ' ', '0'] = .error .invalid ∧
      Chromosome.from_str ['s', 'q', '[', '0', ']'] = .error .invalid ∧
      Chromosome.from_str ['>', 's', 'q', '0'] = .error .invalid ∧
      Chromosome.from_str ['*', 's', 'q', '0'] = .error .invalid ∧
      Chromosome.from_str ['=', 's', 'q', '0'] = .error .invalid :=
⟨rfl, rfl, rfl, rfl, rfl, rfl, rfl, rfl, rfl⟩

/-! ## CRAM slice builder (noodles-cram/src/data_container/slice/builder.rs)

Only the record fields the builder inspects are modelled: the optional
reference-sequence id and the optional 1-based alignment start and end
(`Position` is a nonzero `usize`; its values embed as `Nat`). -/

structure CramRecord where
  referenceSequenceId : Option Nat
  alignmentStart : Option Nat
  alignmentEnd : Option Nat
deriving DecidableEq

structure Builder where
  records : List CramRecord
  sliceReferenceSequenceId : Option Nat
deriving DecidableEq

inductive AddRecordError where
  | referenceSequenceIdMismatch (r : CramRecord)
  | sliceFull (r : CramRecord)
deriving DecidableEq

def MAX_RECORD_COUNT : Nat := 10240

-- pub fn add_record(&mut self, record: Record) -> Result<&Record, AddRecordError>.
-- The &mut receiver is modelled by returning the updated builder beside the
-- result; Ok(self.records.last().unwrap()) is the record just appended.
def Builder.add_record (b : Builder) (record : CramRecord) :
    Builder × Except AddRecordError CramRecord :=
if b.records.length ≥ MAX_RECORD_COUNT then (b, .error (.sliceFull record))
  else
    let b1 := if b.records.isEmpty
      then { b with sliceReferenceSequenceId := record.referenceSequenceId } else b
    if record.referenceSequenceId = b1.sliceReferenceSequenceId then
      ({ b1 with records := b1.records ++ [record] }, .ok record)
    else (b1, .error (.referenceSequenceIdMismatch record))

/-- Claim C4: `add_record` on a full builder rejects with `SliceFull`; on a
non-full, non-empty builder it rejects a record whose reference-sequence id
differs from the pinned id with `ReferenceSequenceIdMismatch`, and appends the
record on a match; the first record added to an empty builder pins the slice
reference-sequence id. -/
theorem c4_add_record_contract (b : Builder) (r : CramRecord) :
    (b.records.length ≥ MAX_RECORD_COUNT → b.add_record r = (b, .error (.sliceFull r))) ∧
      (b.records.length < MAX_RECORD_COUNT → b.records ≠ [] →
        r.referenceSequenceId ≠ b.sliceReferenceSequenceId →
        b.add_record r = (b, .error (.referenceSequenceIdMismatch r))) ∧
      (b.records.length < MAX_RECORD_COUNT → b.records ≠ [] →
        r.referenceSequenceId = b.sliceReferenceSequenceId →
        b.add_record r = ({ b with records := b.records ++ [r] }, .ok r)) ∧
      (b.records.length < MAX_RECORD_COUNT → b.records = [] →
        b.add_record r = (⟨[r], r.referenceSequenceId⟩, .ok r)) := by
refine ⟨?_, ?_, ?_, ?_⟩
· intro hfull
  simp [Builder.add_record, hfull]
· intro hlt hne hmis
  have hge : ¬ b.records.length ≥ MAX_RECORD_COUNT := Nat.not_le.mpr hlt
  have hempty : b.records.isEmpty = false := by
    cases hb : b.records with
    | nil => exact absurd hb hne
    | cons x xs => simp [hb]
  simp [Builder.add_record, hge, hempty, hmis]
· intro hlt hne heq
  have hge : ¬ b.records.length ≥ MAX_RECORD_COUNT := Nat.not_le.mpr hlt
  have hempty : b.records.isEmpty = false := by
    cases hb : b.records with
    | nil => exact absurd hb hne
    | cons x xs => simp [hb]
  simp [Builder.add_record, hge, hempty, heq]
· intro hlt hnil
  have hge : ¬ b.records.length ≥ MAX_RECORD_COUNT := Nat.not_le.mpr hlt
  simp [Builder.add_record, hge, hnil]
  simp [MAX_RECORD_COUNT]

/-- Witness for C4: one concrete instance per branch of the contract. -/
theorem c4_add_record_contract_witness :
    (Builder.add_record ⟨List.replicate 10240 ⟨Option.some 0, Option.none, Option.none⟩,
        Option.some 0⟩ ⟨Option.some 0, Option.none, Option.none⟩ =
      (⟨List.replicate 10240 ⟨Option.some 0, Option.none, Option.none⟩, Option.some 0⟩,
        .error (.sliceFull ⟨Option.some 0, Option.none, Option.none⟩))) ∧
      (Builder.add_record ⟨[⟨Option.some 0, Option.none, Option.none⟩], Option.some 0⟩
          ⟨Option.some 1, Option.none, Option.none⟩ =
        (⟨[⟨Option.some 0, Option.none, Option.none⟩], Option.some 0⟩,
          .error (.referenceSequenceIdMismatch ⟨Option.some 1, Option.none, Option.none⟩))) ∧
      (Builder.add_record ⟨[], Option.none⟩ ⟨Option.some 7, Option.none, Option.none⟩ =
        (⟨[⟨Option.some 7, Option.none, Option.none⟩], Option.some 7⟩, .ok
          ⟨Option.some 7, Option.none, Option.none⟩)) := by
refine ⟨?_, ?_, ?_⟩
· exact (c4_add_record_contract _ _).1 (by rw [List.length_replicate, ge_iff_le, MAX_RECORD_COUNT])
· exact (c4_add_record_contract _ _).2.1 (by simp [MAX_RECORD_COUNT]) (by simp) (by simp)
· exact (c4_add_record_contract _ _).2.2.2 (by simp [MAX_RECORD_COUNT]) rfl

/-- Claim C10: `add_record` is atomic on failure: whenever it returns an
error, the builder state is unchanged and the rejected record travels inside
the error value. -/
theorem c10_add_record_atomic (b : Builder) (r : CramRecord) (e : AddRecordError)
    (h : (b.add_record r).2 = .error e) :
    (b.add_record r).1 = b ∧ (e = .sliceFull r ∨ e = .referenceSequenceIdMismatch r) := by
by_cases hfull : b.records.length ≥ MAX_RECORD_COUNT
· have hb : b.add_record r = (b, .error (.sliceFull r)) := by
    simp [Builder.add_record, hfull]
  refine ⟨by rw [hb], Or.inl ?_⟩
  rw [hb] at h
  exact (Except.error.inj h).symm
· by_cases hempty : b.records.isEmpty
  · have hok : (b.add_record r).2 = .ok r := by
      simp [Builder.add_record, hfull, hempty]
    rw [h] at hok
    exact absurd hok (by simp)
  · by_cases heq : r.referenceSequenceId = b.sliceReferenceSequenceId
    · have hok : (b.add_record r).2 = .ok r := by
        simp [Builder.add_record, hfull, hempty, heq]
      rw [h] at hok
      exact absurd hok (by simp)
    · have hb : b.add_record r = (b, .error (.referenceSequenceIdMismatch r)) := by
        simp [Builder.add_record, hfull, hempty, heq]
      refine ⟨by rw [hb], Or.inr ?_⟩
      rw [hb] at h
      exact (Except.error.inj h).symm

/-- Witness for C10 at a concrete mismatch rejection. -/
theorem c10_add_record_atomic_witness :
    (Builder.add_record ⟨[⟨Option.some 0, Option.none, Option.none⟩], Option.some 0⟩
        ⟨Option.some 1, Option.none, Option.none⟩).1 =
      ⟨[⟨Option.some 0, Option.none, Option.none⟩], Option.some 0⟩ ∧
      (AddRecordError.referenceSequenceIdMismatch ⟨Option.some 1, Option.none, Option.none⟩ =
          AddRecordError.sliceFull ⟨Option.some 1, Option.none, Option.none⟩ ∨
        AddRecordError.referenceSequenceIdMismatch ⟨Option.some 1, Option.none, Option.none⟩ =
          AddRecordError.referenceSequenceIdMismatch
            ⟨Option.some 1, Option.none, Option.none⟩) :=
c10_add_record_atomic _ _ _ rfl

inductive ReferenceSequenceId where
  | some (id : Nat)
  | none
  | many
deriving DecidableEq

/-- Modelled from the spec: `ReferenceSequenceId::is_some` lives in the CRAM
container module, which is not among the provided source files; the spec fixes
the classification enumeration as `{Some(id), None, Many}`, so `is_some` holds
exactly on the `Some` variant. -/
def ReferenceSequenceId.is_some : ReferenceSequenceId → Bool
  | ReferenceSequenceId.some _ => true
  | ReferenceSequenceId.none => false
  | ReferenceSequenceId.many => false

-- fn find_slice_reference_sequence_id(records: &[Record]) -> ReferenceSequenceId.
-- The HashSet of ids is modelled by the deduplicated id list; the assert on a
-- nonempty record slice is a panic, modelled as Option.none.
def find_slice_reference_sequence_id (records : List CramRecord) :
    Option ReferenceSequenceId :=
if records.isEmpty then Option.none
  else
    match (records.map CramRecord.referenceSequenceId).dedup with
    | [] => Option.none
    | [Option.some id] => Option.some (ReferenceSequenceId.some id)
    | [Option.none] => Option.some ReferenceSequenceId.none
    | _ => Option.some ReferenceSequenceId.many

-- cmp::min on Option<Position>: in the derived Rust ordering on Option,
-- None is below every Some, and Some values compare by content.
def option_min (a b : Option Nat) : Option Nat :=
match a, b with
  | Option.none, _ => Option.none
  | _, Option.none => Option.none
  | Option.some x, Option.some y => Option.some (min x y)

-- cmp::max on Option<Position>, same ordering.
def option_max (a b : Option Nat) : Option Nat :=
match a, b with
  | Option.none, y => y
  | x, Option.none => x
  | Option.some x, Option.some y => Option.some (max x y)

def USIZE_MAX : Nat := 2 ^ 64 - 1

-- Loop body of find_slice_alignment_positions: both accumulators advance per
-- record, as cmp::min(record.alignment_start(), acc) and
-- cmp::max(record.alignment_end(), acc).
def positions_step (acc : Option Nat × Option Nat) (r : CramRecord) :
    Option Nat × Option Nat :=
(option_min r.alignmentStart acc.1, option_max r.alignmentEnd acc.2)

-- fn find_slice_alignment_positions(records: &[Record]); the start
-- accumulator begins at Position::new(usize::MAX) = Some(usize::MAX) and the
-- end accumulator at None; the assert on a nonempty slice is a panic,
-- modelled as Option.none.
def find_slice_alignment_positions (records : List CramRecord) :
    Option (Option Nat × Option Nat) :=
if records.isEmpty then Option.none
  else Option.some (records.foldl positions_step (Option.some USIZE_MAX, Option.none))

structure SliceHeaderInfo where
  referenceSequenceId : ReferenceSequenceId
  alignmentStart : Option Nat
  alignmentSpan : Option Nat
deriving DecidableEq

-- Header-relevant part of Builder::build: reference classification, slice
-- alignment positions, and the alignment start/span header fields.  The
-- encoding pipeline (write_records, block compression, reference MD5) does
-- not influence these three fields and is not modelled.  The usize
-- subtraction end - start + 1 would panic on underflow, modelled as
-- Option.none.
def build_header_info (records : List CramRecord) : Option SliceHeaderInfo :=
match find_slice_reference_sequence_id records with
  | Option.none => Option.none
  | Option.some rid =>
    match (if rid.is_some then find_slice_alignment_positions records
           else Option.some (Option.none, Option.none)) with
    | Option.none => Option.none
    | Option.some (s, e) =>
      match s, e with
      | Option.some s, Option.some e =>
        if e < s then Option.none
        else Option.some ⟨rid, Option.some s, Option.some (e - s + 1)⟩
      | _, _ => Option.some ⟨rid, Option.none, Option.none⟩

theorem dedup_const : ∀ (l : List (Option Nat)) (a : Option Nat), l ≠ [] →
    (∀ x ∈ l, x = a) → l.dedup = [a] := by
intro l
induction l with
| nil => intro a h; exact absurd rfl h
| cons x xs ih =>
  intro a _ hall
  have hx : x = a := hall x (List.mem_cons_self x xs)
  subst hx
  cases xs with
  | nil => simp
  | cons y ys =>
    have hy : y = x := hall y (List.mem_cons_of_mem x (List.mem_cons_self y ys))
    have hmem : x ∈ y :: ys := by
      rw [hy]
      exact List.mem_cons_self x ys
    rw [List.dedup_cons_of_mem hmem]
    exact ih x (List.cons_ne_nil y ys) (fun z hz => hall z (List.mem_cons_of_mem x hz))

theorem foldl_positions_fst : ∀ (l : List CramRecord) (acc : Option Nat × Option Nat),
    (List.foldl positions_step acc l).1 =
      List.foldl (fun x r => option_min r.alignmentStart x) acc.1 l := by
intro l
induction l with
| nil => intro acc; rfl
| cons r rs ih => intro acc; rw [List.foldl_cons, List.foldl_cons]; exact ih _

theorem foldl_positions_snd : ∀ (l : List CramRecord) (acc : Option Nat × Option Nat),
    (List.foldl positions_step acc l).2 =
      List.foldl (fun x r => option_max r.alignmentEnd x) acc.2 l := by
intro l
induction l with
| nil => intro acc; rfl
| cons r rs ih => intro acc; rw [List.foldl_cons, List.foldl_cons]; exact ih _

theorem foldl_min_some : ∀ (l : List CramRecord) (v : Nat),
    (∀ r ∈ l, ∃ s, r.alignmentStart = Option.some s) →
    ∃ m, List.foldl (fun x r => option_min r.alignmentStart x) (Option.some v) l =
        Option.some m ∧
      m ≤ v ∧ (m = v ∨ ∃ r ∈ l, r.alignmentStart = Option.some m) ∧
      ∀ r ∈ l, ∀ s, r.alignmentStart = Option.some s → m ≤ s := by
intro l
induction l with
| nil => intro v _; exact ⟨v, rfl, Nat.le_refl v, Or.inl rfl, by simp⟩
| cons r rs ih =>
  intro v h
  obtain ⟨s, hs⟩ := h r (List.mem_cons_self r rs)
  obtain ⟨m, hm, hmle, hmem, hlb⟩ :=
    ih (min s v) (fun x hx => h x (List.mem_cons_of_mem r hx))
  refine ⟨m, ?_, ?_, ?_, ?_⟩
  · rw [List.foldl_cons, hs]
    exact hm
  · exact Nat.le_trans hmle (min_le_right s v)
  · rcases hmem with hmv | ⟨x, hx, hxs⟩
    · by_cases hsv : s ≤ v
      · refine Or.inr ⟨r, List.mem_cons_self r rs, ?_⟩
        rw [hs, hmv, min_eq_left hsv]
      · exact Or.inl (hmv.trans (min_eq_right (Nat.le_of_not_le hsv)))
    · exact Or.inr ⟨x, List.mem_cons_of_mem r hx, hxs⟩
  · intro x hx t ht
    rcases List.mem_cons.mp hx with hxr | hx2
    · have hts : t = s := by
        rw [hxr, hs] at ht
        exact (Option.some.inj ht).symm
      rw [hts]
      exact Nat.le_trans hmle (min_le_left s v)
    · exact hlb x hx2 t ht

theorem foldl_max_some : ∀ (l : List CramRecord) (acc : Option Nat),
    (∀ r ∈ l, ∃ e, r.alignmentEnd = Option.some e) → (l ≠ [] ∨ acc.isSome) →
    ∃ m, List.foldl (fun x r => option_max r.alignmentEnd x) acc l = Option.some m ∧
      ((∃ r ∈ l, r.alignmentEnd = Option.some m) ∨ acc = Option.some m) ∧
      (∀ r ∈ l, ∀ e, r.alignmentEnd = Option.some e → e ≤ m) ∧
      ∀ w, acc = Option.some w → w ≤ m := by
intro l
induction l with
| nil =>
  intro acc _ hne
  rcases hne with hne | hsome
  · exact absurd rfl hne
  · obtain ⟨w, hw⟩ := Option.isSome_iff_exists.mp hsome
    refine ⟨w, by rw [hw]; rfl, Or.inr hw, by simp, fun u hu => ?_⟩
    rw [hw] at hu
    rw [Option.some.inj hu]
| cons r rs ih =>
  intro acc h _
  obtain ⟨e, he⟩ := h r (List.mem_cons_self r rs)
  have hrs : ∀ x ∈ rs, ∃ e, x.alignmentEnd = Option.some e :=
    fun x hx => h x (List.mem_cons_of_mem r hx)
  cases acc with
  | none =>
    have hstep : option_max r.alignmentEnd Option.none = Option.some e := by
      simp [option_max, he]
    obtain ⟨m, hm, hmem, hub, haccb⟩ :=
      ih (option_max r.alignmentEnd Option.none) hrs (Or.inr (by rw [hstep]; rfl))
    refine ⟨m, by rw [List.foldl_cons]; exact hm, ?_, ?_, ?_⟩
    · rcases hmem with ⟨x, hx, hxe⟩ | hacc
      · exact Or.inl ⟨x, List.mem_cons_of_mem r hx, hxe⟩
      · rw [hstep] at hacc
        refine Or.inl ⟨r, List.mem_cons_self r rs, ?_⟩
        rw [he]
        exact hacc
    · intro x hx t ht
      rcases List.mem_cons.mp hx with hxr | hx2
      · have hte : t = e := by
          rw [hxr, he] at ht
          exact (Option.some.inj ht).symm
        rw [hte]
        exact haccb e hstep
      · exact hub x hx2 t ht
    · intro w hw
      exact absurd hw (by simp)
  | some w0 =>
    have hstep : option_max r.alignmentEnd (Option.some w0) = Option.some (max e w0) := by
      simp [option_max, he]
    obtain ⟨m, hm, hmem, hub, haccb⟩ :=
      ih (option_max r.alignmentEnd (Option.some w0)) hrs (Or.inr (by rw [hstep]; rfl))
    refine ⟨m, by rw [List.foldl_cons]; exact hm, ?_, ?_, ?_⟩
    · rcases hmem with ⟨x, hx, hxe⟩ | hacc
      · exact Or.inl ⟨x, List.mem_cons_of_mem r hx, hxe⟩
      · rw [hstep] at hacc
        have hmax : max e w0 = m := Option.some.inj hacc
        by_cases hew : w0 ≤ e
        · refine Or.inl ⟨r, List.mem_cons_self r rs, ?_⟩
          rw [he, ← hmax, max_eq_left hew]
        · refine Or.inr ?_
          rw [← hmax, max_eq_right (Nat.le_of_not_le hew)]
    · intro x hx t ht
      rcases List.mem_cons.mp hx with hxr | hx2
      · have hte : t = e := by
          rw [hxr, he] at ht
          exact (Option.some.inj ht).symm
        rw [hte]
        exact Nat.le_trans (le_max_left e w0) (haccb _ hstep)
      · exact hub x hx2 t ht
    · intro w hw
      have hww : w = w0 := (Option.some.inj hw).symm
      rw [hww]
      exact Nat.le_trans (le_max_right e w0) (haccb _ hstep)

theorem fsrsi_all_some (records : List CramRecord) (rid : Nat) (hne : records ≠ [])
    (hrid : ∀ r ∈ records, r.referenceSequenceId = Option.some rid) :
    find_slice_reference_sequence_id records =
      Option.some (ReferenceSequenceId.some rid) := by
have hie : records.isEmpty = false := by
  cases records with
  | nil => exact absurd rfl hne
  | cons x xs => rfl
have hmapne : records.map CramRecord.referenceSequenceId ≠ [] := by
  cases records with
  | nil => exact absurd rfl hne
  | cons x xs => simp
have hall : ∀ x ∈ records.map CramRecord.referenceSequenceId, x = Option.some rid := by
  intro x hx
  obtain ⟨r, hr, hrx⟩ := List.mem_map.mp hx
  rw [← hrx]
  exact hrid r hr
have hd := dedup_const _ (Option.some rid) hmapne hall
simp [find_slice_reference_sequence_id, hie, hd]

/-- Claim C6: for every non-empty record set whose build classifies the
reference as `Some`, the built slice header carries the least record alignment
start as `alignment_start` and greatest end − least start + 1 as
`alignment_span`; the spec's three-record scenario yields reference id
`Some 5`, start 50, span 151. -/
theorem c6_build_header_alignment :
    (∀ (records : List CramRecord) (rid : Nat),
        records ≠ [] →
        (∀ r ∈ records, r.referenceSequenceId = Option.some rid) →
        (∀ r ∈ records, ∃ s e, r.alignmentStart = Option.some s ∧
          r.alignmentEnd = Option.some e ∧ s ≤ e ∧ s ≤ USIZE_MAX) →
        ∃ a b, build_header_info records =
            Option.some ⟨ReferenceSequenceId.some rid, Option.some a,
              Option.some (b - a + 1)⟩ ∧
          (∃ r ∈ records, r.alignmentStart = Option.some a) ∧
          (∀ r ∈ records, ∀ s, r.alignmentStart = Option.some s → a ≤ s) ∧
          (∃ r ∈ records, r.alignmentEnd = Option.some b) ∧
          (∀ r ∈ records, ∀ e, r.alignmentEnd = Option.some e → e ≤ b) ∧ a ≤ b) ∧
      build_header_info
          [⟨Option.some 5, Option.some 100, Option.some 150⟩,
            ⟨Option.some 5, Option.some 50, Option.some 200⟩,
            ⟨Option.some 5, Option.some 80, Option.some 120⟩] =
        Option.some ⟨ReferenceSequenceId.some 5, Option.some 50, Option.some 151⟩ := by
constructor
· intro records rid hne hrid hmapped
  have hcls := fsrsi_all_some records rid hne hrid
  have hstart : ∀ r ∈ records, ∃ s, r.alignmentStart = Option.some s := by
    intro r hr
    obtain ⟨s, e, hs, _, _, _⟩ := hmapped r hr
    exact ⟨s, hs⟩
  have hend : ∀ r ∈ records, ∃ e, r.alignmentEnd = Option.some e := by
    intro r hr
    obtain ⟨s, e, _, he, _, _⟩ := hmapped r hr
    exact ⟨e, he⟩
  obtain ⟨a, hfold1, hale, hamem0, halb⟩ := foldl_min_some records USIZE_MAX hstart
  obtain ⟨b, hfold2, hbmem0, hbub, _⟩ :=
    foldl_max_some records Option.none hend (Or.inl hne)
  have hamem : ∃ r ∈ records, r.alignmentStart = Option.some a := by
    rcases hamem0 with hmax | hmem
    · obtain ⟨r0, hr0⟩ : ∃ r, r ∈ records := by
        cases records with
        | nil => exact absurd rfl hne
        | cons x xs => exact ⟨x, List.mem_cons_self x xs⟩
      obtain ⟨s, e, hs, he, hse, hsmax⟩ := hmapped r0 hr0
      have h1 : a ≤ s := halb r0 hr0 s hs
      have h2 : s = a := Nat.le_antisymm (hmax ▸ hsmax) h1
      exact ⟨r0, hr0, by rw [hs, h2]⟩
    · exact hmem
  have hbmem : ∃ r ∈ records, r.alignmentEnd = Option.some b :=
    hbmem0.resolve_right (by simp)
  have hab : a ≤ b := by
    obtain ⟨r1, hr1, ha1⟩ := hamem
    obtain ⟨s, e, hs, he, hse, _⟩ := hmapped r1 hr1
    have has : a = s := Option.some.inj (ha1.symm.trans hs)
    have heb : e ≤ b := hbub r1 hr1 e he
    exact has ▸ Nat.le_trans hse heb
  have h1 : (records.foldl positions_step (Option.some USIZE_MAX, Option.none)).1 =
      Option.some a := by
    rw [foldl_positions_fst]
    exact hfold1
  have h2 : (records.foldl positions_step (Option.some USIZE_MAX, Option.none)).2 =
      Option.some b := by
    rw [foldl_positions_snd]
    exact hfold2
  have hpair : records.foldl positions_step (Option.some USIZE_MAX, Option.none) =
      (Option.some a, Option.some b) := by
    rw [← h1, ← h2]
  have hie : records.isEmpty = false := by
    cases records with
    | nil => exact absurd rfl hne
    | cons x xs => rfl
  have hfsap : find_slice_alignment_positions records =
      Option.some (Option.some a, Option.some b) := by
    simp [find_slice_alignment_positions, hie, hpair]
  refine ⟨a, b, ?_, hamem, halb, hbmem, hbub, hab⟩
  simp [build_header_info, hcls, hfsap, ReferenceSequenceId.is_some, Nat.not_lt.mpr hab]
· decide

/-- Witness for C6: the general statement applied at the spec's three-record
scenario. -/
theorem c6_build_header_alignment_witness :
    ∃ a b, build_header_info
        [⟨Option.some 5, Option.some 100, Option.some 150⟩,
          ⟨Option.some 5, Option.some 50, Option.some 200⟩,
          ⟨Option.some 5, Option.some 80, Option.some 120⟩] =
        Option.some ⟨ReferenceSequenceId.some 5, Option.some a,
          Option.some (b - a + 1)⟩ ∧
      (∃ r ∈ ([⟨Option.some 5, Option.some 100, Option.some 150⟩,
          ⟨Option.some 5, Option.some 50, Option.some 200⟩,
          ⟨Option.some 5, Option.some 80, Option.some 120⟩] : List CramRecord),
        r.alignmentStart = Option.some a) ∧
      (∀ r ∈ ([⟨Option.some 5, Option.some 100, Option.some 150⟩,
          ⟨Option.some 5, Option.some 50, Option.some 200⟩,
          ⟨Option.some 5, Option.some 80, Option.some 120⟩] : List CramRecord),
        ∀ s, r.alignmentStart = Option.some s → a ≤ s) ∧
      (∃ r ∈ ([⟨Option.some 5, Option.some 100, Option.some 150⟩,
          ⟨Option.some 5, Option.some 50, Option.some 200⟩,
          ⟨Option.some 5, Option.some 80, Option.some 120⟩] : List CramRecord),
        r.alignmentEnd = Option.some b) ∧
      (∀ r ∈ ([⟨Option.some 5, Option.some 100, Option.some 150⟩,
          ⟨Option.some 5, Option.some 50, Option.some 200⟩,
          ⟨Option.some 5, Option.some 80, Option.some 120⟩] : List CramRecord),
        ∀ e, r.alignmentEnd = Option.some e → e ≤ b) ∧ a ≤ b :=
c6_build_header_alignment.1 _ 5 (by simp) (by decide)
  (by
    intro r hr
    fin_cases hr
    · exact ⟨100, 150, rfl, rfl, by norm_num, by norm_num [USIZE_MAX]⟩
    · exact ⟨50, 200, rfl, rfl, by norm_num, by norm_num [USIZE_MAX]⟩
    · exact ⟨80, 120, rfl, rfl, by norm_num, by norm_num [USIZE_MAX]⟩)

/-! ## CRAM adaptive arithmetic-coder model (noodles-cram/src/codecs/aac/model.rs)

The range coder only supplies the scaled frequency target
`f = range_get_freq(total_freq)` and is advanced by `range_decode`, which
does not touch the model, so `decode` is embedded as a function of the model
and of that target `f`.  Out-of-bounds `Vec` indexing (a panic) is modelled
as `Option.none`. -/

structure Model where
  total_freq : Nat
  symbols : List Nat
  frequencies : List Nat
deriving DecidableEq

-- pub fn new(num_sym: u8) -> Self: the loop pushes i into symbols and i into
-- frequencies for i in 0..num_sym, and total_freq = num_sym.
def Model.new (num_sym : Nat) : Model :=
⟨num_sym, List.range num_sym, List.range num_sym⟩

-- The decode loop "while acc + frequencies[x] <= freq { acc += ...; x += 1 }":
-- returns (x, acc) for the least x whose guard fails; running past the end of
-- the table is the out-of-bounds panic, Option.none.
def scan_freq : List Nat → Nat → Nat → Option (Nat × Nat)
  | [], _, _ => Option.none
  | q :: qs, f, acc =>
    if acc + q ≤ f then
      match scan_freq qs f (acc + q) with
      | Option.none => Option.none
      | Option.some (x, a) => Option.some (x + 1, a)
    else Option.some (0, acc)

-- Vec::swap(i, j) for the in-bounds adjacent swap of the decode epilogue.
def list_swap (l : List Nat) (i j : Nat) : List Nat :=
(l.set i (l.getD j 0)).set j (l.getD i 0)

-- fn renormalize(&mut self): every frequency becomes f - f / 2, and
-- total_freq becomes the sum of the new frequencies.
def renormalize (l : List Nat) : List Nat :=
l.map (fun q => q - q / 2)

-- Epilogue of decode after the frequency update and optional renormalization:
-- read sym = symbols[x], then the single-step adaptive swap when x > 0 and
-- frequencies[x] > frequencies[x - 1].
def decode_tail (symbols : List Nat) (x : Nat) (freqs2 : List Nat) (total2 : Nat) :
    Option (Nat × Model) :=
let sym := symbols.getD x 0
  if 0 < x ∧ freqs2.getD x 0 > freqs2.getD (x - 1) 0 then
    Option.some (sym, ⟨total2, list_swap symbols x (x - 1), list_swap freqs2 x (x - 1)⟩)
  else Option.some (sym, ⟨total2, symbols, freqs2⟩)

-- pub fn decode<R>(&mut self, ...) -> io::Result<u8>: scan, update
-- frequencies[x] += 16 and total_freq += 16, renormalize when
-- total_freq > (1 << 16) - 17, then the epilogue.  The symbols[x] read is
-- guarded like the Vec indexing it is.
def Model.decode (m : Model) (f : Nat) : Option (Nat × Model) :=
match scan_freq m.frequencies f 0 with
  | Option.none => Option.none
  | Option.some (x, _acc) =>
    if x < m.symbols.length then
      let freqs1 := m.frequencies.set x (m.frequencies.getD x 0 + 16)
      let total1 := m.total_freq + 16
      if total1 > 2 ^ 16 - 17 then
        decode_tail m.symbols x (renormalize freqs1) (renormalize freqs1).sum
      else decode_tail m.symbols x freqs1 total1
    else Option.none

theorem scan_freq_eq_none_iff : ∀ (l : List Nat) (f acc : Nat),
    scan_freq l f acc = Option.none ↔ (l = [] ∨ acc + l.sum ≤ f) := by
intro l
induction l with
| nil => intro f acc; simp [scan_freq]
| cons q qs ih =>
  intro f acc
  by_cases hq : acc + q ≤ f
  · constructor
    · intro h
      rw [scan_freq, if_pos hq] at h
      refine Or.inr ?_
      cases hs : scan_freq qs f (acc + q) with
      | none =>
        have := (ih f (acc + q)).mp hs
        rcases this with hnil | hsum
        · rw [hnil]
          simpa using hq
        · rw [List.sum_cons]
          omega
      | some xa =>
        rw [hs] at h
        exact absurd h (by simp)
    · intro h
      rw [scan_freq, if_pos hq]
      have hn : scan_freq qs f (acc + q) = Option.none := by
        refine (ih f (acc + q)).mpr ?_
        rcases h with hnil | hsum
        · exact absurd hnil (List.cons_ne_nil q qs)
        · rw [List.sum_cons] at hsum
          exact Or.inr (by omega)
      rw [hn]
  · constructor
    · intro h
      rw [scan_freq, if_neg hq] at h
      exact absurd h (by simp)
    · intro h
      rcases h with hnil | hsum
      · exact absurd hnil (List.cons_ne_nil q qs)
      · rw [List.sum_cons] at hsum
        exact absurd hsum (by omega)
theorem scan_freq_some_lt : ∀ (l : List Nat) (f acc x a : Nat),
    scan_freq l f acc = Option.some (x, a) → x < l.length := by
intro l
induction l with
| nil => intro f acc x a h; exact absurd h (by simp [scan_freq])
| cons q qs ih =>
  intro f acc x a h
  rw [scan_freq] at h
  by_cases hq : acc + q ≤ f
  · rw [if_pos hq] at h
    cases hs : scan_freq qs f (acc + q) with
    | none =>
      rw [hs] at h
      exact absurd h (by simp)
    | some xa =>
      obtain ⟨x0, a0⟩ := xa
      rw [hs] at h
      have hx : x = x0 + 1 := by
        have := Option.some.inj h
        exact (congrArg Prod.fst this).symm
      have := ih f (acc + q) x0 a0 hs
      rw [hx, List.length_cons]
      omega
  · rw [if_neg hq] at h
    have hx : x = 0 := by
      have := Option.some.inj h
      exact (congrArg Prod.fst this).symm
    rw [hx, List.length_cons]
    omega

theorem sum_set_add16 : ∀ (l : List Nat) (x : Nat), x < l.length →
    (l.set x (l.getD x 0 + 16)).sum = l.sum + 16 := by
intro l
induction l with
| nil => intro x hx; simp at hx
| cons q qs ih =>
  intro x hx
  cases x with
  | zero => simp [List.sum_cons]; omega
  | succ x0 =>
    have hx0 : x0 < qs.length := by simpa using hx
    simp only [List.set_cons_succ, List.getD_cons_succ, List.sum_cons, ih x0 hx0]
    omega

theorem swap_adjacent_sum : ∀ (l : List Nat) (x : Nat), 1 ≤ x → x < l.length →
    (list_swap l x (x - 1)).sum = l.sum := by
intro l
induction l with
| nil => intro x h1 h2; simp at h2
| cons q qs ih =>
  intro x h1 h2
  cases x with
  | zero => omega
  | succ x0 =>
    cases x0 with
    | zero =>
      cases qs with
      | nil => simp at h2
      | cons q2 rest =>
        simp [list_swap, List.sum_cons]
        omega
    | succ k =>
      cases qs with
      | nil => simp at h2
      | cons q2 rest =>
        have h2' : k + 1 < (q2 :: rest).length := by simpa using h2
        have hstep : list_swap (q :: q2 :: rest) (k + 2) (k + 1) =
            q :: list_swap (q2 :: rest) (k + 1) k := by
          simp [list_swap]
        have ihk : (list_swap (q2 :: rest) (k + 1) k).sum = (q2 :: rest).sum :=
          ih (k + 1) (by omega) h2'
        show (list_swap (q :: q2 :: rest) (k + 2) (k + 1)).sum = (q :: q2 :: rest).sum
        rw [hstep, List.sum_cons, List.sum_cons, ihk]

theorem renormalize_sum_le : ∀ l : List Nat,
    (renormalize l).sum ≤ l.sum / 2 + l.length := by
intro l
induction l with
| nil => simp [renormalize]
| cons q qs ih =>
  simp only [renormalize, List.map_cons, List.sum_cons, List.length_cons] at ih ⊢
  omega

theorem decode_tail_inv (symbols : List Nat) (x : Nat) (freqs2 : List Nat) (total2 : Nat)
    (sym : Nat) (m2 : Model) (hx : x < freqs2.length)
    (ht : total2 = freqs2.sum) (hb : total2 ≤ 2 ^ 16 - 17)
    (h : decode_tail symbols x freqs2 total2 = Option.some (sym, m2)) :
    m2.total_freq = m2.frequencies.sum ∧ m2.total_freq ≤ 2 ^ 16 - 17 := by
unfold decode_tail at h
by_cases hc : 0 < x ∧ freqs2.getD x 0 > freqs2.getD (x - 1) 0
· rw [if_pos hc] at h
  have hm2 : m2 = ⟨total2, list_swap symbols x (x - 1), list_swap freqs2 x (x - 1)⟩ :=
    (congrArg Prod.snd (Option.some.inj h)).symm
  rw [hm2]
  refine ⟨?_, hb⟩
  show total2 = (list_swap freqs2 x (x - 1)).sum
  rw [swap_adjacent_sum freqs2 x hc.1 hx]
  exact ht
· rw [if_neg hc] at h
  have hm2 : m2 = ⟨total2, symbols, freqs2⟩ :=
    (congrArg Prod.snd (Option.some.inj h)).symm
  rw [hm2]
  exact ⟨ht, hb⟩

/-- Claim C1 (amended): `new(n)` initializes `symbols[i] = i`,
`frequencies[i] = i`, `total_freq = n`; and for every model state satisfying
`total_freq = Σ frequencies` (with `total_freq ≤ 2^16 − 17` and at most 255
symbols, as produced by `new` on a `u8` alphabet), every successful decode
preserves `total_freq = Σ frequencies` and `total_freq ≤ 2^16 − 17`.  The
fresh `new(n)` state itself satisfies `total_freq = Σ frequencies` only for
`n ∈ {0, 3}`, so the claim's "first decode on a fresh model" clause fails in
general (see the counterexample). -/
theorem c1_decode_invariant :
    (∀ n : Nat, (Model.new n).total_freq = n ∧
      ∀ i, i < n → (Model.new n).symbols.getD i 0 = i ∧
        (Model.new n).frequencies.getD i 0 = i) ∧
    ∀ (m : Model) (f sym : Nat) (m2 : Model),
      m.frequencies.length ≤ 255 →
      m.total_freq = m.frequencies.sum →
      m.total_freq ≤ 2 ^ 16 - 17 →
      m.decode f = Option.some (sym, m2) →
      m2.total_freq = m2.frequencies.sum ∧ m2.total_freq ≤ 2 ^ 16 - 17 := by
constructor
· intro n
  refine ⟨rfl, fun i hi => ⟨?_, ?_⟩⟩
  · show (List.range n).getD i 0 = i
    rw [List.getD_eq_getElem?_getD, List.getElem?_range hi]
    rfl
  · show (List.range n).getD i 0 = i
    rw [List.getD_eq_getElem?_getD, List.getElem?_range hi]
    rfl
· intro m f sym m2 hlen hinv hbound hdec
  unfold Model.decode at hdec
  cases hscan : scan_freq m.frequencies f 0 with
  | none =>
    rw [hscan] at hdec
    exact absurd hdec (by simp)
  | some xa =>
    obtain ⟨x, acc⟩ := xa
    rw [hscan] at hdec
    simp only [] at hdec
    have hxlt : x < m.frequencies.length := scan_freq_some_lt _ _ _ _ _ hscan
    by_cases hxs : x < m.symbols.length
    · rw [if_pos hxs] at hdec
      have hsum1 : (m.frequencies.set x (m.frequencies.getD x 0 + 16)).sum =
          m.frequencies.sum + 16 := sum_set_add16 _ _ hxlt
      have hlen1 : (m.frequencies.set x (m.frequencies.getD x 0 + 16)).length =
          m.frequencies.length := List.length_set _ _ _
      by_cases hren : m.total_freq + 16 > 2 ^ 16 - 17
      · rw [if_pos hren] at hdec
        refine decode_tail_inv m.symbols x _ _ sym m2 ?_ rfl ?_ hdec
        · show x < (renormalize _).length
          unfold renormalize
          rw [List.length_map, hlen1]
          exact hxlt
        · have h1 : (renormalize (m.frequencies.set x (m.frequencies.getD x 0 + 16))).sum ≤
              (m.frequencies.set x (m.frequencies.getD x 0 + 16)).sum / 2 +
                (m.frequencies.set x (m.frequencies.getD x 0 + 16)).length :=
            renormalize_sum_le _
          rw [hsum1, hlen1] at h1
          omega
      · rw [if_neg hren] at hdec
        refine decode_tail_inv m.symbols x _ _ sym m2 ?_ ?_ ?_ hdec
        · rw [hlen1]
          exact hxlt
        · rw [hsum1]
          omega
        · omega
    · rw [if_neg hxs] at hdec
      exact absurd hdec (by simp)

/-- Witness for the amended C1: the `new` description at `n = 5, i = 2`, and
the decode invariant at `new(3)` (one of the two alphabet sizes whose fresh
state already satisfies `total_freq = Σ frequencies`) with target `f = 1`. -/
theorem c1_decode_invariant_witness :
    ((Model.new 5).total_freq = 5 ∧
      (Model.new 5).symbols.getD 2 0 = 2 ∧ (Model.new 5).frequencies.getD 2 0 = 2) ∧
      (Model.decode (Model.new 3) 1 = Option.some (2, ⟨19, [0, 2, 1], [0, 18, 1]⟩) ∧
        (19 : Nat) = List.sum [0, 18, 1] ∧ (19 : Nat) ≤ 2 ^ 16 - 17) := by
have h1 := (c1_decode_invariant.1 5).1
have h2 := (c1_decode_invariant.1 5).2 2 (by omega)
have h3 := c1_decode_invariant.2 (Model.new 3) 1 2 ⟨19, [0, 2, 1], [0, 18, 1]⟩
  (by decide) (by decide) (by decide) rfl
exact ⟨⟨h1, h2.1, h2.2⟩, rfl, h3.1, h3.2⟩

/-- Counterexample to C1 as stated: the first decode on the fresh `new(5)`
model (with target `f = 0`, which is below `total_freq = 5`) succeeds and
leaves `total_freq = 21` while the frequencies sum to `26`. -/
theorem c1_decode_invariant_counterexample :
    Model.decode (Model.new 5) 0 =
      Option.some (1, ⟨21, [1, 0, 2, 3, 4], [17, 0, 2, 3, 4]⟩) ∧
      ¬ (21 : Nat) = List.sum [17, 0, 2, 3, 4] :=
⟨rfl, by decide⟩

/-- Claim C9: the decode frequency scan stays in bounds iff the scaled target
`f` is below `Σ frequencies` (for a nonempty table); whenever
`Σ frequencies ≤ f` the decode panics (out-of-bounds index); and for
`n ∈ {1, 2}` the fresh model has `Σ frequencies = n(n−1)/2 < total_freq = n`,
so some `f < total_freq` drives the scan past the table end. -/
theorem c9_decode_scan_oob :
    (∀ (freqs : List Nat) (f : Nat), freqs ≠ [] →
        (scan_freq freqs f 0 = Option.none ↔ freqs.sum ≤ f)) ∧
      (∀ (m : Model) (f : Nat), m.frequencies.sum ≤ f →
        m.decode f = Option.none) ∧
      ∀ n : Nat, n = 1 ∨ n = 2 →
        (Model.new n).frequencies.sum < (Model.new n).total_freq ∧
          ∃ f, f < (Model.new n).total_freq ∧ (Model.new n).decode f = Option.none := by
refine ⟨?_, ?_, ?_⟩
· intro freqs f hne
  rw [scan_freq_eq_none_iff freqs f 0]
  constructor
  · intro h
    rcases h with hnil | hsum
    · exact absurd hnil hne
    · omega
  · intro h
    exact Or.inr (by omega)
· intro m f hf
  unfold Model.decode
  have hn : scan_freq m.frequencies f 0 = Option.none :=
    (scan_freq_eq_none_iff m.frequencies f 0).mpr (Or.inr (by omega))
  rw [hn]
· intro n hn
  rcases hn with rfl | rfl
  · exact ⟨by decide, 0, by decide, rfl⟩
  · exact ⟨by decide, 1, by decide, rfl⟩

/-- Witness for C9: the scan equivalence at the concrete table `[0]`, the
decode panic at `new(1)` with `f = 0`, and the `n ∈ {1, 2}` clause at
`n = 1`. -/
theorem c9_decode_scan_oob_witness :
    (scan_freq [0] 0 0 = Option.none ↔ List.sum [0] ≤ 0) ∧
      Model.decode (Model.new 1) 0 = Option.none ∧
      ((Model.new 1).frequencies.sum < (Model.new 1).total_freq ∧
        ∃ f, f < (Model.new 1).total_freq ∧ (Model.new 1).decode f = Option.none) :=
⟨c9_decode_scan_oob.1 [0] 0 (by simp),
  c9_decode_scan_oob.2.1 (Model.new 1) 0 (by decide),
  c9_decode_scan_oob.2.2 1 (Or.inl rfl)⟩

/-! ## BGZF block reader (noodles-bgzf/src/reader.rs)

The inner byte stream is a list of bytes (naturals reduced modulo 256 where
read); the reader carries its remaining input together with the compressed
position counter.  Deflate decompression (flate2) is an external crate, so
`read_block` is parameterized by an inflate oracle; `Option.none` from the
oracle is a decompression failure. -/

def BGZF_HEADER_SIZE : Nat := 18

-- gz::TRAILER_SIZE: the 8-byte CRC32 and ISIZE trailer.
def TRAILER_SIZE : Nat := 8

structure ReaderState where
  buf : List Nat
  position : Nat
deriving DecidableEq

inductive ReadBlockResult where
  | eof (r : ReaderState)
  | ok (blockSize : Nat) (r : ReaderState) (payload : List Nat)
  | ioError
  | panic
deriving DecidableEq

-- pub fn read_block(&mut self, block: &mut Block) -> io::Result<usize>.
-- A failed 18-byte header read returns Ok(0), modelled as eof; BSIZE is the
-- little-endian u16 at header[16..18]; the usize expression
-- block_size - BGZF_HEADER_SIZE - gz::TRAILER_SIZE + 1 underflows (panic)
-- exactly when block_size < 26; short payload or trailer reads and
-- decompression failure are io errors; on success the position advances by
-- BGZF_HEADER_SIZE + cdata_len + TRAILER_SIZE and block_size is returned.
def read_block (inflate : List Nat → Option (List Nat)) (r : ReaderState) :
    ReadBlockResult :=
if r.buf.length < BGZF_HEADER_SIZE then ReadBlockResult.eof r
  else
    let header := r.buf.take BGZF_HEADER_SIZE
    let rest := r.buf.drop BGZF_HEADER_SIZE
    let block_size := header.getD 16 0 % 256 + 256 * (header.getD 17 0 % 256)
    if block_size < BGZF_HEADER_SIZE + TRAILER_SIZE then ReadBlockResult.panic
    else
      let cdata_len := block_size - BGZF_HEADER_SIZE - TRAILER_SIZE + 1
      if rest.length < cdata_len then ReadBlockResult.ioError
      else
        let cdata := rest.take cdata_len
        let rest2 := rest.drop cdata_len
        if rest2.length < TRAILER_SIZE then ReadBlockResult.ioError
        else
          match inflate cdata with
          | Option.none => ReadBlockResult.ioError
          | Option.some payload =>
            ReadBlockResult.ok block_size
              ⟨rest2.drop TRAILER_SIZE,
                r.position + BGZF_HEADER_SIZE + cdata_len + TRAILER_SIZE⟩ payload

-- Inflate oracle that decompresses everything to the empty payload, for
-- concrete instances (the claims under test do not depend on payload bytes).
def inflate_empty : List Nat → Option (List Nat) :=
fun _ => Option.some []

/-- Claim C8: `read_block` is total only for BSIZE ≥ 26: whenever the 18-byte
header reads successfully but BSIZE ≤ 25, the unsigned length computation
underflows and the call panics instead of returning an I/O error; with
BSIZE ≥ 26 no panic is possible. -/
theorem c8_read_block_underflow :
    (∀ (inflate : List Nat → Option (List Nat)) (r : ReaderState),
        BGZF_HEADER_SIZE ≤ r.buf.length →
        (r.buf.take BGZF_HEADER_SIZE).getD 16 0 % 256 +
            256 * ((r.buf.take BGZF_HEADER_SIZE).getD 17 0 % 256) ≤ 25 →
        read_block inflate r = ReadBlockResult.panic) ∧
      ∀ (inflate : List Nat → Option (List Nat)) (r : ReaderState),
        26 ≤ (r.buf.take BGZF_HEADER_SIZE).getD 16 0 % 256 +
            256 * ((r.buf.take BGZF_HEADER_SIZE).getD 17 0 % 256) →
        read_block inflate r ≠ ReadBlockResult.panic := by
constructor
· intro inflate r hlen hbs
  have h26 : BGZF_HEADER_SIZE + TRAILER_SIZE = 26 := rfl
  unfold read_block
  rw [if_neg (Nat.not_lt.mpr hlen)]
  rw [if_pos (by omega)]
· intro inflate r hbs
  have h26 : BGZF_HEADER_SIZE + TRAILER_SIZE = 26 := rfl
  unfold read_block
  by_cases h1 : r.buf.length < BGZF_HEADER_SIZE
  · rw [if_pos h1]
    simp
  · rw [if_neg h1]
    rw [if_neg (by omega)]
    dsimp only
    split
    · simp
    · split
      · simp
      · split <;> simp

/-- Witness for C8: the panic at a concrete 18-byte header carrying
BSIZE = 25, and the no-panic guarantee at a concrete block with
BSIZE = 30. -/
theorem c8_read_block_underflow_witness :
    read_block inflate_empty
        ⟨[31, 139, 8, 4, 0, 0, 0, 0, 0, 255, 6, 0, 66, 67, 2, 0, 25, 0], 0⟩ =
      ReadBlockResult.panic ∧
      read_block inflate_empty
          ⟨[31, 139, 8, 4, 0, 0, 0, 0, 0, 255, 6, 0, 66, 67, 2, 0, 30, 0,
            0, 0, 0, 0, 0, 0, 0, 0, 0, 0, 0, 0, 0], 0⟩ ≠
        ReadBlockResult.panic :=
⟨c8_read_block_underflow.1 inflate_empty _ (by decide) (by decide),
  c8_read_block_underflow.2 inflate_empty _ (by decide)⟩

/-- Claim C2 (amended): for every successful read of a non-final block,
`read_block` returns the raw BSIZE field (one less than the total on-disk
block size) while the reader's compressed position advances by
`HEADER_SIZE + cdata_len + TRAILER_SIZE`, which equals `BSIZE + 1`; a clean
EOF at the 18-byte header boundary returns 0 (eof) with the position
unchanged. -/
theorem c2_read_block_return :
    (∀ (inflate : List Nat → Option (List Nat)) (header cdata trailer tail payload : List Nat)
        (pos : Nat),
        header.length = BGZF_HEADER_SIZE →
        26 ≤ header.getD 16 0 % 256 + 256 * (header.getD 17 0 % 256) →
        cdata.length = header.getD 16 0 % 256 + 256 * (header.getD 17 0 % 256) -
          BGZF_HEADER_SIZE - TRAILER_SIZE + 1 →
        trailer.length = TRAILER_SIZE →
        inflate cdata = Option.some payload →
        read_block inflate ⟨header ++ cdata ++ trailer ++ tail, pos⟩ =
          ReadBlockResult.ok (header.getD 16 0 % 256 + 256 * (header.getD 17 0 % 256))
            ⟨tail, pos + (header.getD 16 0 % 256 + 256 * (header.getD 17 0 % 256) + 1)⟩
            payload) ∧
      ∀ (inflate : List Nat → Option (List Nat)) (pos : Nat),
        read_block inflate ⟨[], pos⟩ = ReadBlockResult.eof ⟨[], pos⟩ := by
constructor
· intro inflate header cdata trailer tail payload pos hh hbs hc ht hinf
  have h26 : BGZF_HEADER_SIZE + TRAILER_SIZE = 26 := rfl
  have h18 : BGZF_HEADER_SIZE = 18 := rfl
  have h8 : TRAILER_SIZE = 8 := rfl
  have hassoc : header ++ cdata ++ trailer ++ tail =
      header ++ (cdata ++ (trailer ++ tail)) := by
    simp [List.append_assoc]
  have htake : (header ++ cdata ++ trailer ++ tail).take BGZF_HEADER_SIZE = header := by
    rw [hassoc, List.take_left' hh]
  have hdrop : (header ++ cdata ++ trailer ++ tail).drop BGZF_HEADER_SIZE =
      cdata ++ (trailer ++ tail) := by
    rw [hassoc, List.drop_left' hh]
  have hlen : ¬ ((header ++ cdata ++ trailer ++ tail).length < BGZF_HEADER_SIZE) := by
    rw [hassoc, List.length_append, hh]
    omega
  have htake2 : (cdata ++ (trailer ++ tail)).take
      (header.getD 16 0 % 256 + 256 * (header.getD 17 0 % 256) -
        BGZF_HEADER_SIZE - TRAILER_SIZE + 1) = cdata := List.take_left' hc
  have hdrop2 : (cdata ++ (trailer ++ tail)).drop
      (header.getD 16 0 % 256 + 256 * (header.getD 17 0 % 256) -
        BGZF_HEADER_SIZE - TRAILER_SIZE + 1) = trailer ++ tail := List.drop_left' hc
  have hdrop3 : (trailer ++ tail).drop TRAILER_SIZE = tail := List.drop_left' ht
  unfold read_block
  rw [if_neg hlen]
  dsimp only
  rw [htake, hdrop]
  rw [if_neg (by omega)]
  rw [if_neg (by rw [List.length_append, hc]; omega)]
  rw [htake2, hdrop2]
  rw [if_neg (by rw [List.length_append, ht]; omega)]
  rw [hinf, hdrop3]
  have hposition : pos + BGZF_HEADER_SIZE +
      (header.getD 16 0 % 256 + 256 * (header.getD 17 0 % 256) -
        BGZF_HEADER_SIZE - TRAILER_SIZE + 1) + TRAILER_SIZE =
      pos + (header.getD 16 0 % 256 + 256 * (header.getD 17 0 % 256) + 1) := by
    omega
  rw [hposition]
· intro inflate pos
  rfl

/-- Witness for the amended C2 at a concrete block with BSIZE = 30 (5
compressed payload bytes), and the EOF case at the empty stream. -/
theorem c2_read_block_return_witness :
    read_block inflate_empty
        ⟨[31, 139, 8, 4, 0, 0, 0, 0, 0, 255, 6, 0, 66, 67, 2, 0, 30, 0] ++
          [0, 0, 0, 0, 0] ++ [0, 0, 0, 0, 0, 0, 0, 0] ++ [], 0⟩ =
      ReadBlockResult.ok 30 ⟨[], 31⟩ [] ∧
      read_block inflate_empty ⟨[], 7⟩ = ReadBlockResult.eof ⟨[], 7⟩ := by
constructor
· have h := c2_read_block_return.1 inflate_empty
    [31, 139, 8, 4, 0, 0, 0, 0, 0, 255, 6, 0, 66, 67, 2, 0, 30, 0]
    [0, 0, 0, 0, 0] [0, 0, 0, 0, 0, 0, 0, 0] [] [] 0
    (by decide) (by decide) (by decide) (by decide) rfl
  exact h
· exact c2_read_block_return.2 inflate_empty 7

/-- Counterexample to C2 as stated: on a successful read of a block whose
BSIZE field is 30, `read_block` returns 30 — the raw BSIZE — and not
`BSIZE + 1 = 31`, even though the position does advance by 31. -/
theorem c2_read_block_return_counterexample :
    read_block inflate_empty
        ⟨[31, 139, 8, 4, 0, 0, 0, 0, 0, 255, 6, 0, 66, 67, 2, 0, 30, 0,
          0, 0, 0, 0, 0, 0, 0, 0, 0, 0, 0, 0, 0], 0⟩ =
      ReadBlockResult.ok 30 ⟨[], 31⟩ [] ∧ (30 : Nat) ≠ 30 + 1 :=
⟨rfl, by decide⟩

/-! ## Async BCF indexed query (noodles-bcf/src/async/reader/query.rs)

The async stream is embedded as a pure transcript: the underlying reader
delivers, for each chunk in input order, the finite list of lazy records it
decodes while that chunk is active (the chunk's list ends when the reader's
virtual position reaches the chunk end, or at EOF — both return the machine
to Seek).  The emitted items follow the Seek/Read/Done loop over those
reads; as with try_unfold, an error item ends the whole stream. -/

/-- Modelled from the spec: the BCF lazy record view (the noodles-bcf lazy
record module is not among the provided sources) exposes `chromosome_id`, the
raw 1-based `position`, and the raw 1-based `end` derived from the record
length (here `rend`). -/
structure LazyRecord where
  chromosome_id : Nat
  position : Nat
  rend : Nat
deriving DecidableEq

/-- Modelled from the spec: the noodles-core `Interval` (not among the
provided sources) is a closed 1-based interval; two closed intervals
intersect iff each starts no later than the other ends. -/
structure Interval where
  istart : Nat
  iend : Nat
deriving DecidableEq

def Interval.intersects (a b : Interval) : Bool :=
a.istart ≤ b.iend && b.istart ≤ a.iend

-- fn intersects(record, chromosome_id, region_interval) -> io::Result<bool>:
-- Position::try_from rejects zero for either coordinate with an invalid-data
-- error; otherwise the record matches iff its chromosome id equals the
-- target and [position, end] intersects the region interval.
def intersects (record : LazyRecord) (chromosome_id : Nat)
    (region_interval : Interval) : Except String Bool :=
if record.position = 0 then Except.error "invalid position"
  else if record.rend = 0 then Except.error "invalid end"
  else Except.ok (record.chromosome_id == chromosome_id &&
    Interval.intersects ⟨record.position, record.rend⟩ region_interval)

-- State::Read for one active chunk: each decoded record is tested against
-- the filter; matches are yielded, a conversion error is yielded and stops
-- the stream (second component true), EOF or passing the chunk end returns
-- to Seek.
def read_chunk (chromosome_id : Nat) (interval : Interval) :
    List LazyRecord → List (Except String LazyRecord) × Bool
  | [] => ([], false)
  | record :: rs =>
    match intersects record chromosome_id interval with
    | Except.error e => ([Except.error e], true)
    | Except.ok true =>
      (Except.ok record :: (read_chunk chromosome_id interval rs).1,
        (read_chunk chromosome_id interval rs).2)
    | Except.ok false => read_chunk chromosome_id interval rs

-- pub fn query(...) -> impl Stream<...>: Seek walks the chunk list in input
-- order, Read streams the active chunk, Done completes the stream; an error
-- item ends the stream early.
def query (chromosome_id : Nat) (interval : Interval) :
    List (List LazyRecord) → List (Except String LazyRecord)
  | [] => []
  | c :: cs =>
    if (read_chunk chromosome_id interval c).2 then (read_chunk chromosome_id interval c).1
    else (read_chunk chromosome_id interval c).1 ++ query chromosome_id interval cs

theorem intersects_ok_true (record : LazyRecord) (cid : Nat) (iv : Interval)
    (h : intersects record cid iv = Except.ok true) :
    record.chromosome_id = cid ∧ 1 ≤ record.position ∧ 1 ≤ record.rend ∧
      Interval.intersects ⟨record.position, record.rend⟩ iv = true := by
unfold intersects at h
by_cases hp : record.position = 0
· rw [if_pos hp] at h
  exact absurd h (by simp)
· rw [if_neg hp] at h
  by_cases he : record.rend = 0
  · rw [if_pos he] at h
    exact absurd h (by simp)
  · rw [if_neg he] at h
    have hb := Except.ok.inj h
    have hsplit := Bool.and_eq_true_iff.mp hb
    refine ⟨Nat.beq_eq_true_eq _ _ ▸ hsplit.1, by omega, by omega, hsplit.2⟩

theorem intersects_err_of_zero (record : LazyRecord) (cid : Nat) (iv : Interval)
    (h : record.position = 0 ∨ record.rend = 0) :
    ∃ e, intersects record cid iv = Except.error e := by
unfold intersects
by_cases hp : record.position = 0
· exact ⟨"invalid position", by rw [if_pos hp]⟩
· rcases h with hp0 | he0
  · exact absurd hp0 hp
  · exact ⟨"invalid end", by rw [if_neg hp, if_pos he0]⟩

theorem read_chunk_ok_sound (cid : Nat) (iv : Interval) :
    ∀ (l : List LazyRecord) (r : LazyRecord),
      Except.ok r ∈ (read_chunk cid iv l).1 →
      r.chromosome_id = cid ∧ 1 ≤ r.position ∧ 1 ≤ r.rend ∧
        Interval.intersects ⟨r.position, r.rend⟩ iv = true := by
intro l
induction l with
| nil => intro r h; simp [read_chunk] at h
| cons q qs ih =>
  intro r h
  cases hint : intersects q cid iv with
  | error e =>
    simp only [read_chunk, hint] at h
    simp at h
  | ok b =>
    cases b with
    | true =>
      simp only [read_chunk, hint] at h
      rcases List.mem_cons.mp h with heq | hmem
      · have hrq : r = q := Except.ok.inj heq
        rw [hrq]
        exact intersects_ok_true q cid iv hint
      · exact ih r hmem
    | false =>
      simp only [read_chunk, hint] at h
      exact ih r h

/-- Claim C3: every record yielded by the query stream over chunks with
target `(chrom, iv)` has `chromosome_id = chrom` and a closed 1-based
interval `[position, end]` intersecting `iv` — records failing the predicate
are never yielded — and a decoded record whose 1-based position or end is
zero (an invalid `Position`) makes the stream yield a data error instead of
a record. -/
theorem c3_query_filter :
    (∀ (cid : Nat) (iv : Interval) (chunks : List (List LazyRecord)) (r : LazyRecord),
        Except.ok r ∈ query cid iv chunks →
        r.chromosome_id = cid ∧ 1 ≤ r.position ∧ 1 ≤ r.rend ∧
          Interval.intersects ⟨r.position, r.rend⟩ iv = true) ∧
      ∀ (cid : Nat) (iv : Interval) (r : LazyRecord) (rs : List LazyRecord)
        (cs : List (List LazyRecord)),
        (r.position = 0 ∨ r.rend = 0) →
        ∃ e, query cid iv ((r :: rs) :: cs) = [Except.error e] := by
constructor
· intro cid iv chunks
  induction chunks with
  | nil => intro r h; simp [query] at h
  | cons c cs ih =>
    intro r h
    by_cases hstop : (read_chunk cid iv c).2
    · simp only [query, hstop, if_true] at h
      exact read_chunk_ok_sound cid iv c r h
    · simp only [query, hstop, if_false, Bool.false_eq_true] at h
      rcases List.mem_append.mp h with hmem | hmem
      · exact read_chunk_ok_sound cid iv c r hmem
      · exact ih r hmem
· intro cid iv r rs cs h
  obtain ⟨e, he⟩ := intersects_err_of_zero r cid iv h
  refine ⟨e, ?_⟩
  have hrc : read_chunk cid iv (r :: rs) = ([Except.error e], true) := by
    simp only [read_chunk, he]
  simp only [query, hrc, if_true]

/-- Witness for C3 at the spec's own query scenario: chunks covering
records `(0, [10, 20])`, `(1, [30, 40])`, `(0, [35, 45])` queried with
`(0, [25, 50])` yield exactly the third record; and a record with position 0
in the first chunk makes the stream yield one data error. -/
theorem c3_query_filter_witness :
    ((⟨0, 35, 45⟩ : LazyRecord).chromosome_id = 0 ∧
      1 ≤ (⟨0, 35, 45⟩ : LazyRecord).position ∧
      1 ≤ (⟨0, 35, 45⟩ : LazyRecord).rend ∧
      Interval.intersects ⟨35, 45⟩ ⟨25, 50⟩ = true) ∧
      ∃ e, query 0 ⟨25, 50⟩ [[⟨0, 0, 10⟩], [⟨0, 30, 40⟩]] = [Except.error e] := by
constructor
· refine c3_query_filter.1 0 ⟨25, 50⟩
    [[⟨0, 10, 20⟩], [⟨1, 30, 40⟩, ⟨0, 35, 45⟩]] ⟨0, 35, 45⟩ ?_
  have hq : query 0 ⟨25, 50⟩ [[⟨0, 10, 20⟩], [⟨1, 30, 40⟩, ⟨0, 35, 45⟩]] =
      [Except.ok ⟨0, 35, 45⟩] := rfl
  rw [hq]
  exact List.mem_singleton.mpr rfl
· exact c3_query_filter.2 0 ⟨25, 50⟩ ⟨0, 0, 10⟩ [] [[⟨0, 30, 40⟩]] (Or.inl rfl)

end Spec2Proof
